import Mathlib

/-!
Verification of the kdwsdl2cpp front end (src/kdwsdl2cpp/src/main.cpp) and of the
spec-described core pipeline components of KDSoap's WSDL-to-C++ compiler.

The CLI argument loop, the namespace-mapping parsing and the generation-mode
configuration are embedded directly from `main.cpp`.  Components whose code is
not part of the source tree (Dependency Orderer, Namespace Mapper fallback,
Document Store, Code Generator optionality rendering) are modelled from the
specification, as marked on each definition.
-/

namespace KDSoap

/-! ## Qt string primitives

`QString::section(sep, start, end)` splits a string into fields at every
occurrence of the separator (keeping empty fields) and rejoins the selected
field range with the separator.  `main.cpp` uses exactly two calls:
`section("=", 0, -2)` (all fields but the last, i.e. everything before the
final `=`) and `section("=", -1, -1)` (the last field, i.e. everything after
the final `=`).  We model the field splitting on `List Char`. -/

/-- Split a character list into the list of fields delimited by `sep`,
keeping empty fields, exactly as `QString::split`/`section` field extraction
does.  The result is always non-empty. -/
def splitE (sep : Char) : List Char → List (List Char)
  | [] => [[]]
  | a :: rest =>
    let r := splitE sep rest
    if a = sep then [] :: r else (a :: r.headD []) :: r.tail

/-- Rejoin fields with the separator character (inverse of `splitE`). -/
def joinSep (sep : Char) : List (List Char) → List Char
  | [] => []
  | [f] => f
  | f :: g :: fs => f ++ sep :: joinSep sep (g :: fs)

theorem splitE_ne_nil (sep : Char) (l : List Char) : splitE sep l ≠ [] := by
  cases l with
  | nil => simp [splitE]
  | cons a rest =>
    simp only [splitE]
    by_cases ha : a = sep <;> simp [ha]

theorem joinSep_splitE (sep : Char) (l : List Char) : joinSep sep (splitE sep l) = l := by
  induction l with
  | nil => simp [splitE, joinSep]
  | cons a rest ih =>
    simp only [splitE]
    rcases h : splitE sep rest with _ | ⟨f, fs⟩
    · exact absurd h (splitE_ne_nil sep rest)
    · rw [h] at ih
      by_cases ha : a = sep
      · subst ha
        simp only [if_pos rfl, joinSep, List.nil_append, ih]
      · rw [if_neg ha]
        simp only [List.headD_cons, List.tail_cons]
        cases fs with
        | nil => simp only [joinSep] at ih ⊢; rw [ih]
        | cons g gs => simp only [joinSep] at ih ⊢; rw [List.cons_append, ih]

theorem splitE_append_sep (sep : Char) (xs ys : List Char) :
    splitE sep (xs ++ sep :: ys) = splitE sep xs ++ splitE sep ys := by
  induction xs with
  | nil =>
    simp [splitE]
  | cons a xs ih =>
    simp only [List.cons_append, splitE, List.append_eq]
    rcases h : splitE sep xs with _ | ⟨f, fs⟩
    · exact absurd h (splitE_ne_nil sep xs)
    · rw [ih, h]
      by_cases ha : a = sep <;> simp [ha]

theorem splitE_no_sep (sep : Char) (l : List Char) (h : sep ∉ l) : splitE sep l = [l] := by
  induction l with
  | nil => simp [splitE]
  | cons a rest ih =>
    simp only [List.mem_cons, not_or] at h
    simp only [splitE, ih h.2, if_neg (Ne.symm h.1)]
    simp

/-- Model of `QString::section("=", 0, -2)`: everything before the final `=`
(the whole string's fields except the last, rejoined with `=`); empty when the
string holds no `=`. -/
def sectionInit (s : String) : String :=
  String.mk (joinSep '=' (splitE '=' s.data).dropLast)

/-- Model of `QString::section("=", -1, -1)`: the last field, i.e. everything
after the final `=` (the whole string when it holds no `=`). -/
def sectionLast (s : String) : String :=
  String.mk ((splitE '=' s.data).getLastD [])

/-- Model of `QChar`-based `QString::startsWith(c)`: does the first character
equal `c`. -/
def charStartsWith (c : Char) (s : String) : Bool :=
  s.data.head? = some c

/-- Model of skipping the first byte (`argv[arg] + 1` on a string that starts
with the one-byte character `@`). -/
def dropFirst (s : String) : String :=
  String.mk s.data.tail

/-- Whitespace as stripped by `QString::trimmed`. -/
def isQSpace (c : Char) : Bool :=
  c = ' ' ∨ c = '\t' ∨ c = '\n' ∨ c = '\r' ∨ c = Char.ofNat 11 ∨ c = Char.ofNat 12

/-- Model of `QString::trimmed`: strip whitespace from both ends. -/
def qtrim (s : String) : String :=
  String.mk (((s.data.dropWhile isQSpace).reverse.dropWhile isQSpace).reverse)

/-- Model of `QFileInfo::fileName`: the part of the path after the last `/`. -/
def qtFileName (s : String) : String :=
  String.mk ((splitE '/' s.data).getLastD [])

theorem data_append (a b : String) : (a ++ b).data = a.data ++ b.data := by
  cases a; cases b; rfl

theorem mk_data (s : String) : String.mk s.data = s := by
  cases s; rfl

/-- Decomposition of the two `section` calls at the final `=`: when `c` holds
no `=`, the string `u ++ "=" ++ c` has URI part `u` and code part `c`. -/
theorem section_decomp (u c : String) (hc : '=' ∉ c.data) :
    sectionInit (u ++ "=" ++ c) = u ∧ sectionLast (u ++ "=" ++ c) = c := by
  have hdata : (u ++ "=" ++ c).data = u.data ++ '=' :: c.data := by
    rw [data_append, data_append]
    have heq : ("=" : String).data = ['='] := rfl
    rw [heq, List.append_assoc, List.singleton_append]
  have hsplit : splitE '=' (u ++ "=" ++ c).data = splitE '=' u.data ++ [c.data] := by
    rw [hdata, splitE_append_sep, splitE_no_sep '=' c.data hc]
  constructor
  · rw [sectionInit, hsplit, List.dropLast_concat, joinSep_splitE, mk_data]
  · rw [sectionLast, hsplit]
    simp [mk_data]

/-- A string with no `=` has an empty `section("=", 0, -2)` and is its own
`section("=", -1, -1)`. -/
theorem section_no_eq (s : String) (h : '=' ∉ s.data) :
    sectionInit s = "" ∧ sectionLast s = s := by
  constructor
  · rw [sectionInit, splitE_no_sep '=' s.data h]
    rfl
  · rw [sectionLast, splitE_no_sep '=' s.data h]
    simp [mk_data]

/-! ## Namespace mapping table (`Settings::NSMapping`)

`QMap<QString, QString>` is modelled by its lookup function;
`nsmapping[uri] = target` inserts or overwrites the entry. -/

def NSMap : Type := String → Option String

/-- Insertion `nsmapping[uri] = target` on a `QMap`. -/
def nsInsert (m : NSMap) (k v : String) : NSMap :=
  fun x => if x = k then some v else m x

/-- One line of a `-namespaceMapping @file` mapping file, embedded from
`main.cpp` lines 175-186: trim, skip `#`-prefixed lines, split at the final
`=`, and store the entry only when both sides are non-empty. -/
def applyMappingLine (m : NSMap) (line : String) : NSMap :=
  let mapping := qtrim line
  if charStartsWith '#' mapping then m
  else
    let uri := sectionInit mapping
    let target := sectionLast mapping
    if uri ≠ "" ∧ target ≠ "" then nsInsert m uri target else m

/-- All lines of a mapping file, in file order. -/
def applyMappingLines (lines : List String) (m : NSMap) : NSMap :=
  lines.foldl applyMappingLine m

/-! ## The CLI of kdwsdl2cpp (`main.cpp`, function `main`)

The local variables of `main` before the argument loop. -/

/-- Model of `Settings::OptionalElementType` (`settings.h`), with the default `ENone`
used for the initialisation in `main.cpp` line 93. -/
inductive OptionalElementType where
  | ENone
  | ERawPointer
  | EBoostOptional
  | EStdOptional
  deriving DecidableEq

/-- The mutable locals of `main` that the argument loop fills in
(`main.cpp` lines 82-101). -/
structure CliState where
  fileName : Option String
  both : Bool
  impl : Bool
  outfileGiven : Bool
  server : Bool
  headerFile : String
  outputFile : String
  serviceName : String
  exportMacro : String
  nameSpace : String
  nsmapping : NSMap
  optionalElementType : OptionalElementType
  keepUnusedTypes : Bool
  importPathList : List String
  useLocalFilesOnly : Bool
  helpOnMissing : Bool
  pkcs12File : String
  pkcs12Password : String
  skipSync : Bool
  skipAsync : Bool
  skipAsyncJobs : Bool

/-- Initial values of the locals (`main.cpp` lines 82-101). -/
def initState : CliState where
  fileName := none
  both := false
  impl := false
  outfileGiven := false
  server := false
  headerFile := ""
  outputFile := ""
  serviceName := ""
  exportMacro := ""
  nameSpace := ""
  nsmapping := fun _ => none
  optionalElementType := .ENone
  keepUnusedTypes := false
  importPathList := []
  useLocalFilesOnly := false
  helpOnMissing := false
  pkcs12File := ""
  pkcs12Password := ""
  skipSync := false
  skipAsync := false
  skipAsyncJobs := false

/-- Result of the argument `while` loop: an early `return` (with exit code and
whether `showHelp` printed the usage text) or the fallen-through loop end. -/
inductive LoopResult where
  | exit (code : Nat) (usageShown : Bool)
  | finished (st : CliState)

/-- What `main` does after argument handling: `return` an exit code (`usageShown`
records whether `showHelp` ran) or configure `Settings` from `st` and schedule
`KWSDL::Compiler::run` on the event loop. -/
inductive RunDecision where
  | exit (code : Nat) (usageShown : Bool)
  | startCompiler (st : CliState)

/-- The argument `while` loop of `main` (`main.cpp` lines 103-249), embedded
over the remaining argument list.  `fs` models the file system used by
`-namespaceMapping @file` (file name to list of lines; `none` = open fails).
Options taking a value return exit code 1 with usage when the value is missing
(`!argv[arg]`). -/
def parseLoop (fs : String → Option (List String)) : List String → CliState → LoopResult
  | [], st => .finished st
  | a :: rest, st =>
    if a = "-h" ∨ a = "-help" then .exit 0 true
    else if a = "-impl" then
      match rest with
      | [] => .exit 1 true
      | v :: rest' => parseLoop fs rest' { st with impl := true, headerFile := v }
    else if a = "-both" then
      match rest with
      | [] => .exit 1 true
      | v :: rest' => parseLoop fs rest' { st with both := true, outputFile := v }
    else if a = "-server" then parseLoop fs rest { st with server := true }
    else if a = "-v" ∨ a = "-version" then .exit 0 false
    else if a = "-o" ∨ a = "-output" then
      match rest with
      | [] => .exit 1 true
      | v :: rest' => parseLoop fs rest' { st with outfileGiven := true, outputFile := v }
    else if a = "-s" ∨ a = "-service" then
      match rest with
      | [] => .exit 1 true
      | v :: rest' => parseLoop fs rest' { st with serviceName := v }
    else if a = "-exportMacro" then
      match rest with
      | [] => .exit 1 true
      | v :: rest' => parseLoop fs rest' { st with exportMacro := v }
    else if a = "-namespace" then
      match rest with
      | [] => .exit 1 true
      | v :: rest' => parseLoop fs rest' { st with nameSpace := v }
    else if a = "-namespaceMapping" then
      match rest with
      | [] => .exit 1 true
      | v :: rest' =>
        if charStartsWith '@' v then
          match fs (dropFirst v) with
          | none => .exit 1 true
          | some ls => parseLoop fs rest' { st with nsmapping := applyMappingLines ls st.nsmapping }
        else
          parseLoop fs rest'
            { st with nsmapping := nsInsert st.nsmapping (sectionInit v) (sectionLast v) }
    else if a = "-optional-element-type" then
      match rest with
      | [] => .exit 1 true
      | v :: rest' =>
        if v = "raw-pointer" then
          parseLoop fs rest' { st with optionalElementType := .ERawPointer }
        else if v = "boost-optional" then
          parseLoop fs rest' { st with optionalElementType := .EBoostOptional }
        else if v = "std-optional" then
          parseLoop fs rest' { st with optionalElementType := .EStdOptional }
        else parseLoop fs rest' st
    else if a = "-keep-unused-types" then parseLoop fs rest { st with keepUnusedTypes := true }
    else if a = "-import-path" then
      match rest with
      | [] => .exit 1 true
      | v :: rest' => parseLoop fs rest' { st with importPathList := st.importPathList ++ [v] }
    else if a = "-use-local-files-only" then parseLoop fs rest { st with useLocalFilesOnly := true }
    else if a = "-help-on-missing" then parseLoop fs rest { st with helpOnMissing := true }
    else if a = "-pkcs12file" then
      match rest with
      | [] => .exit 1 true
      | v :: rest' => parseLoop fs rest' { st with pkcs12File := v }
    else if a = "-pkcs12password" then
      match rest with
      | [] => .exit 1 true
      | v :: rest' => parseLoop fs rest' { st with pkcs12Password := v }
    else if a = "-no-sync" then parseLoop fs rest { st with skipSync := true }
    else if a = "-no-async" then parseLoop fs rest { st with skipAsync := true }
    else if a = "-no-async-jobs" then parseLoop fs rest { st with skipAsyncJobs := true }
    else if st.fileName = none then parseLoop fs rest { st with fileName := some a }
    else .exit 1 true

/-- The option strings recognised by the argument loop. -/
def optionNames : List String :=
  ["-h", "-help", "-impl", "-both", "-server", "-v", "-version", "-o", "-output",
   "-s", "-service", "-exportMacro", "-namespace", "-namespaceMapping",
   "-optional-element-type", "-keep-unused-types", "-import-path",
   "-use-local-files-only", "-help-on-missing", "-pkcs12file", "-pkcs12password",
   "-no-sync", "-no-async", "-no-async-jobs"]

/-- Behaviour of `main` after the loop (`main.cpp` lines 251-261 and 298-334): no WSDL file
or `-both` combined with `-o`/`-impl` prints the usage text and returns 1;
otherwise the compiler run is scheduled. -/
def cliMain (fs : String → Option (List String)) (args : List String) : RunDecision :=
  match parseLoop fs args initState with
  | .exit c u => .exit c u
  | .finished st =>
    if st.fileName = none then .exit 1 true
    else if st.both && (st.outfileGiven || st.impl) then .exit 1 true
    else .startCompiler st

/-- The four `Settings` fields written by the mode selection
(`main.cpp` lines 264-279). -/
structure GenSettings where
  generateHeader : Bool
  generateImplementation : Bool
  headerFileName : String
  implementationFileName : String
  deriving DecidableEq

/-- The generation-mode configuration of `Settings` (`main.cpp` lines 264-279).
`outputFile.fileName()` is `qtFileName` of the stored path. -/
def configureSettings (st : CliState) : GenSettings :=
  if st.both then
    { generateHeader := true
      generateImplementation := true
      headerFileName := qtFileName st.outputFile ++ ".h"
      implementationFileName := qtFileName st.outputFile ++ ".cpp" }
  else if st.impl then
    { generateHeader := false
      generateImplementation := true
      headerFileName := st.headerFile
      implementationFileName := qtFileName st.outputFile }
  else
    { generateHeader := true
      generateImplementation := false
      headerFileName := qtFileName st.outputFile
      implementationFileName := "UNUSED" }

/-- Definitional unfolding of `cliMain`. -/
theorem cliMain_eq (fs : String → Option (List String)) (args : List String) :
    cliMain fs args =
      match parseLoop fs args initState with
      | .exit c u => .exit c u
      | .finished st =>
        if st.fileName = none then .exit 1 true
        else if st.both && (st.outfileGiven || st.impl) then .exit 1 true
        else .startCompiler st := rfl

/-- The compiler is only started with a WSDL file name and without the
`-both` + `-o`/`-impl` conflict (the post-loop checks of `main.cpp`
lines 251-261). -/
theorem cliMain_startCompiler_inv (fs : String → Option (List String)) (args : List String)
    (st : CliState) (h : cliMain fs args = .startCompiler st) :
    st.fileName ≠ none ∧ (st.both && (st.outfileGiven || st.impl)) = false := by
  rw [cliMain_eq] at h
  cases hp : parseLoop fs args initState with
  | exit c u => rw [hp] at h; simp at h
  | finished st' =>
    rw [hp] at h
    dsimp only at h
    by_cases hf : st'.fileName = none
    · rw [if_pos hf] at h; simp at h
    · rw [if_neg hf] at h
      by_cases hb : (st'.both && (st'.outfileGiven || st'.impl)) = true
      · rw [if_pos hb] at h; simp at h
      · rw [if_neg hb] at h
        injection h with h'
        subst h'
        exact ⟨hf, by revert hb; cases st'.both && (st'.outfileGiven || st'.impl) <;> simp⟩

/-- C1: for every mapping file passed via `-namespaceMapping @file`, each line
is read and trimmed; lines whose trimmed text starts with `#` are ignored; for
every other line the namespace URI is everything before the final `=` and the
code is everything after the final `=`, and the `(uri, code)` entry is added if
and only if both parts are non-empty (URIs containing `=` are supported; lines
with no `=` or an empty side contribute no entry). -/
theorem c1_mapping_file_lines (m : NSMap) (line u c : String)
    (fs : String → Option (List String)) (v : String) (rest : List String) (st : CliState) :
    (charStartsWith '#' (qtrim line) = true → applyMappingLine m line = m)
    ∧ (qtrim line = u ++ "=" ++ c → '=' ∉ c.data →
        sectionInit (qtrim line) = u ∧ sectionLast (qtrim line) = c ∧
        (charStartsWith '#' (qtrim line) = false →
          applyMappingLine m line = if u ≠ "" ∧ c ≠ "" then nsInsert m u c else m))
    ∧ ('=' ∉ (qtrim line).data → charStartsWith '#' (qtrim line) = false →
        applyMappingLine m line = m)
    ∧ (charStartsWith '@' v = true →
        parseLoop fs ("-namespaceMapping" :: v :: rest) st =
          match fs (dropFirst v) with
          | none => .exit 1 true
          | some ls =>
            parseLoop fs rest { st with nsmapping := applyMappingLines ls st.nsmapping })
    ∧ applyMappingLines = fun lines m => lines.foldl applyMappingLine m := by
  refine ⟨?_, ?_, ?_, ?_, rfl⟩
  · intro h
    simp [applyMappingLine, h]
  · intro hdec hc
    have hs := section_decomp u c hc
    rw [hdec]
    refine ⟨hs.1, hs.2, ?_⟩
    intro hhash
    simp only [applyMappingLine, hdec, hhash, Bool.false_eq_true, if_false, hs.1, hs.2]
  · intro hne hhash
    have hs := section_no_eq (qtrim line) hne
    simp [applyMappingLine, hhash, hs.1]
  · intro h
    cases hf : fs (dropFirst v) <;> simp [parseLoop, h, hf]

theorem c1_mapping_file_lines_witness :
    (charStartsWith '#' (qtrim "  # comment") = true
      ∧ applyMappingLine (fun _ => none) "  # comment" = (fun _ => none))
    ∧ (qtrim " http://a=b=ns " = "http://a=b" ++ "=" ++ "ns"
      ∧ sectionInit (qtrim " http://a=b=ns ") = "http://a=b"
      ∧ sectionLast (qtrim " http://a=b=ns ") = "ns"
      ∧ applyMappingLine (fun _ => none) " http://a=b=ns " =
          if "http://a=b" ≠ "" ∧ "ns" ≠ "" then nsInsert (fun _ => none) "http://a=b" "ns"
          else (fun _ => none))
    ∧ ('=' ∉ (qtrim "nodelim").data ∧ applyMappingLine (fun _ => none) "nodelim" = (fun _ => none))
    ∧ parseLoop (fun _ => none) ["-namespaceMapping", "@missing"] initState = .exit 1 true := by
  have h1 := c1_mapping_file_lines (fun _ => none) "  # comment" "http://a=b" "ns"
    (fun _ => none) "@missing" [] initState
  have h2 := c1_mapping_file_lines (fun _ => none) " http://a=b=ns " "http://a=b" "ns"
    (fun _ => none) "@missing" [] initState
  have h3 := c1_mapping_file_lines (fun _ => none) "nodelim" "http://a=b" "ns"
    (fun _ => none) "@missing" [] initState
  refine ⟨⟨rfl, h1.1 rfl⟩, ⟨rfl, ?_⟩, ⟨by decide, h3.2.2.1 (by decide) rfl⟩, ?_⟩
  · have hd := h2.2.1 rfl (by decide)
    exact ⟨hd.1, hd.2.1, hd.2.2 rfl⟩
  · have := h2.2.2.2.1 rfl
    rw [this]

/-- C2: the run is configured in exactly one of three generation modes: `-both`
generates header and implementation named from the base file, `-impl` generates
the implementation only and records the given header file name, otherwise the
header only; the generate-header/generate-implementation flags are exactly
(true,true), (false,true) and (true,false) respectively, and the `-both` mode
excludes `-impl`/`-o`. -/
theorem c2_generation_modes (fs : String → Option (List String)) (args : List String)
    (st : CliState) (h : cliMain fs args = .startCompiler st) :
    (st.both = true →
      configureSettings st =
        { generateHeader := true, generateImplementation := true,
          headerFileName := qtFileName st.outputFile ++ ".h",
          implementationFileName := qtFileName st.outputFile ++ ".cpp" })
    ∧ (st.both = false → st.impl = true →
      configureSettings st =
        { generateHeader := false, generateImplementation := true,
          headerFileName := st.headerFile,
          implementationFileName := qtFileName st.outputFile })
    ∧ (st.both = false → st.impl = false →
      configureSettings st =
        { generateHeader := true, generateImplementation := false,
          headerFileName := qtFileName st.outputFile,
          implementationFileName := "UNUSED" })
    ∧ (st.both = true → st.impl = false ∧ st.outfileGiven = false) := by
  refine ⟨?_, ?_, ?_, ?_⟩
  · intro hb; simp [configureSettings, hb]
  · intro hb hi; simp [configureSettings, hb, hi]
  · intro hb hi; simp [configureSettings, hb, hi]
  · intro hb
    have hinv := (cliMain_startCompiler_inv fs args st h).2
    rw [hb] at hinv
    simp only [Bool.true_and] at hinv
    constructor
    · revert hinv; cases st.impl <;> simp
    · revert hinv; cases st.outfileGiven <;> simp

theorem c2_generation_modes_witness :
    configureSettings
        { initState with both := true, outputFile := "dir/base", fileName := some "w.wsdl" } =
      { generateHeader := true, generateImplementation := true,
        headerFileName := qtFileName "dir/base" ++ ".h",
        implementationFileName := qtFileName "dir/base" ++ ".cpp" } :=
  (c2_generation_modes (fun _ => none) ["-both", "dir/base", "w.wsdl"]
    { initState with both := true, outputFile := "dir/base", fileName := some "w.wsdl" } rfl).1 rfl

/-- C8: the compiler pipeline is started only when a WSDL locator was supplied
and `-both` was not combined with `-o`/`-impl`; a run whose loop ends with no
WSDL locator, or with `-both` plus `-o`/`-impl`, prints the usage text and
returns 1, and a second stray non-option argument ends the loop with usage and
exit status 1. -/
theorem c8_cli_gating (fs : String → Option (List String)) (args : List String) :
    (∀ st, cliMain fs args = .startCompiler st →
      st.fileName ≠ none ∧ (st.both && (st.outfileGiven || st.impl)) = false)
    ∧ (∀ st, parseLoop fs args initState = .finished st → st.fileName = none →
        cliMain fs args = .exit 1 true)
    ∧ (∀ st, parseLoop fs args initState = .finished st →
        (st.both && (st.outfileGiven || st.impl)) = true →
        cliMain fs args = .exit 1 true)
    ∧ (∀ (st : CliState) (a : String) (rest : List String), st.fileName ≠ none →
        a ∉ optionNames → parseLoop fs (a :: rest) st = .exit 1 true) := by
  refine ⟨fun st h => cliMain_startCompiler_inv fs args st h, ?_, ?_, ?_⟩
  · intro st hp hf
    rw [cliMain_eq, hp]
    simp [hf]
  · intro st hp hb
    rw [cliMain_eq, hp]
    by_cases hf : st.fileName = none
    · simp [hf]
    · simp [hf, hb]
  · intro st a rest hf ha
    simp only [optionNames, List.mem_cons, not_or, List.mem_singleton,
      List.not_mem_nil, not_false_iff, and_true] at ha
    obtain ⟨g1, g2, g3, g4, g5, g6, g7, g8, g9, g10, g11, g12, g13, g14, g15, g16, g17,
      g18, g19, g20, g21, g22, g23, g24⟩ := ha
    cases rest <;>
      simp [parseLoop, g1, g2, g3, g4, g5, g6, g7, g8, g9, g10, g11, g12, g13, g14, g15,
        g16, g17, g18, g19, g20, g21, g22, g23, g24, hf]

def c8StateA : CliState :=
  { initState with both := true, outfileGiven := true, outputFile := "o", fileName := some "w.wsdl" }

def c8StateB : CliState :=
  { initState with fileName := some "first.wsdl" }

theorem c8_cli_gating_witness :
    cliMain (fun _ => none) ["-both", "b", "-o", "o", "w.wsdl"] = .exit 1 true ∧
    parseLoop (fun _ => none) ["stray.wsdl"] c8StateB = .exit 1 true :=
  ⟨(c8_cli_gating (fun _ => none) ["-both", "b", "-o", "o", "w.wsdl"]).2.2.1 c8StateA rfl rfl,
    (c8_cli_gating (fun _ => none) []).2.2.2 c8StateB "stray.wsdl" [] (by simp [c8StateB, initState])
      (by decide)⟩

/-- C9: a `-optional-element-type` argument whose value is none of
`raw-pointer`, `boost-optional`, `std-optional` neither errors nor exits; the
loop proceeds with a completely unchanged state, so the strategy keeps its
default `ENone` when nothing else set it. -/
theorem c9_invalid_optional_type (fs : String → Option (List String)) (v : String)
    (rest : List String) (st : CliState)
    (h1 : v ≠ "raw-pointer") (h2 : v ≠ "boost-optional") (h3 : v ≠ "std-optional") :
    parseLoop fs ("-optional-element-type" :: v :: rest) st = parseLoop fs rest st
    ∧ initState.optionalElementType = OptionalElementType.ENone := by
  refine ⟨?_, rfl⟩
  simp [parseLoop, h1, h2, h3]

theorem c9_invalid_optional_type_witness :
    parseLoop (fun _ => none) ["-optional-element-type", "shared-pointer"] initState =
      parseLoop (fun _ => none) [] initState
    ∧ initState.optionalElementType = OptionalElementType.ENone :=
  c9_invalid_optional_type (fun _ => none) "shared-pointer" [] initState
    (by decide) (by decide) (by decide)

/-- C10: a literal (non-`@`) `-namespaceMapping` argument is stored
unconditionally after splitting at the final `=`, even when a side is empty
(the argument `"="` maps the empty URI to the empty code), unlike mapping-file
lines which are dropped unless both parts are non-empty. -/
theorem c10_literal_mapping (fs : String → Option (List String)) (v : String)
    (rest : List String) (st : CliState) (h : charStartsWith '@' v = false) :
    parseLoop fs ("-namespaceMapping" :: v :: rest) st =
      parseLoop fs rest
        { st with nsmapping := nsInsert st.nsmapping (sectionInit v) (sectionLast v) }
    ∧ sectionInit "=" = "" ∧ sectionLast "=" = ""
    ∧ (∀ m : NSMap, applyMappingLine m "=" = m) := by
  refine ⟨?_, rfl, rfl, fun m => rfl⟩
  simp [parseLoop, h]

theorem c10_literal_mapping_witness :
    parseLoop (fun _ => none) ["-namespaceMapping", "="] initState =
      parseLoop (fun _ => none) []
        { initState with nsmapping := nsInsert initState.nsmapping (sectionInit "=") (sectionLast "=") }
    ∧ sectionInit "=" = "" ∧ sectionLast "=" = ""
    ∧ (∀ m : NSMap, applyMappingLine m "=" = m) :=
  c10_literal_mapping (fun _ => none) "=" [] initState rfl

/-! ## The Dependency Orderer (spec section 4.7)

Modelled from the spec: the Dependency Orderer of the core pipeline is not part
of the source tree (only the CLI is), so the component is modelled from the
specification's contract: topological sort of the retained TypeNodes over the
by-value subgraph; on a cycle, one by-value member edge (the lexically
smallest offending edge) is rewritten to a reference/indirection edge and
detection is re-run until the by-value graph is acyclic. -/

/-- A type graph: the retained TypeNodes and the typed edges
{contains-by-value, references}.  An edge `(n, d)` means the container `n`
holds `d` by value. -/
structure TypeGraph (α : Type) where
  nodes : List α
  valueEdges : List (α × α)
  refEdges : List (α × α)

variable {α : Type} [LinearOrder α]

/-- The by-value members of a container `n`. -/
def TypeGraph.deps (g : TypeGraph α) (n : α) : List α :=
  (g.valueEdges.filter (fun e => decide (e.1 = n))).map Prod.snd

/-- Relation: `d` is a by-value member of `n`, both retained. -/
def depRel (g : TypeGraph α) (d n : α) : Prop :=
  (n, d) ∈ g.valueEdges ∧ d ∈ g.nodes ∧ n ∈ g.nodes

/-- The by-value subgraph has no cycle among retained nodes. -/
def Acyclic (g : TypeGraph α) : Prop :=
  ∀ a, ¬ Relation.TransGen (depRel g) a a

theorem mem_deps (g : TypeGraph α) (n d : α) : d ∈ g.deps n ↔ (n, d) ∈ g.valueEdges := by
  simp only [TypeGraph.deps, List.mem_map, List.mem_filter, decide_eq_true_eq]
  constructor
  · rintro ⟨e, ⟨he, h1⟩, h2⟩
    rcases e with ⟨x, y⟩
    cases h1; cases h2; exact he
  · intro h
    exact ⟨(n, d), ⟨h, rfl⟩, rfl⟩

/-- Pick the first remaining node all of whose by-value members are already
emitted (not remaining). -/
def pickFree (g : TypeGraph α) (rem : List α) : Option α :=
  rem.find? (fun n => decide (∀ d ∈ g.deps n, d ∉ rem))

/-- Kahn-style emission: repeatedly emit a dependency-free node.  Returns the
emission order and the remaining (stuck) nodes. -/
def kahnAux (g : TypeGraph α) : Nat → List α → List α → List α × List α
  | 0, rem, acc => (acc, rem)
  | fuel + 1, rem, acc =>
    match pickFree g rem with
    | none => (acc, rem)
    | some n => kahnAux g fuel (rem.erase n) (acc ++ [n])

/-- One full topological-sort pass over the retained nodes. -/
def kahnRun (g : TypeGraph α) : List α × List α :=
  kahnAux g g.nodes.length g.nodes []

theorem transGen_rank {β : Type} {r : β → β → Prop} {f : β → Nat}
    (h : ∀ x y, r x y → f x < f y) {a b : β} (ht : Relation.TransGen r a b) : f a < f b := by
  induction ht with
  | single h1 => exact h _ _ h1
  | tail _ h1 ih => exact lt_trans ih (h _ _ h1)

/-- In an acyclic graph, every non-empty remaining set of retained nodes has a
member all of whose retained by-value members are outside it. -/
theorem exists_pick (g : TypeGraph α) (h : Acyclic g) (rem : List α)
    (hne : rem ≠ []) (hsub : ∀ x ∈ rem, x ∈ g.nodes) :
    ∃ n ∈ rem, ∀ d, depRel g d n → d ∉ rem := by
  classical
  let s : Finset α := g.nodes.toFinset
  let r : {x // x ∈ s} → {x // x ∈ s} → Prop := fun d n => depRel g d.1 n.1
  have htrans : IsTrans {x // x ∈ s} (Relation.TransGen r) := inferInstance
  have hirr : IsIrrefl {x // x ∈ s} (Relation.TransGen r) := by
    constructor
    intro x hx
    have : Relation.TransGen (depRel g) x.1 x.1 :=
      Relation.TransGen.lift Subtype.val (fun a b hab => hab) hx
    exact h x.1 this
  have hwf : WellFounded (Relation.TransGen r) :=
    Finite.wellFounded_of_trans_of_irrefl _
  obtain ⟨a, ha⟩ := List.exists_mem_of_ne_nil rem hne
  have haS : a ∈ s := List.mem_toFinset.2 (hsub a ha)
  obtain ⟨m, hmS, hmin⟩ := hwf.has_min {x : {x // x ∈ s} | x.1 ∈ rem} ⟨⟨a, haS⟩, ha⟩
  refine ⟨m.1, hmS, ?_⟩
  intro d hd hdrem
  have hdS : d ∈ s := List.mem_toFinset.2 hd.2.1
  exact hmin ⟨d, hdS⟩ hdrem (Relation.TransGen.single hd)

/-- Invariants of the Kahn emission loop: the emitted and remaining nodes
permute the input, remaining nodes stay retained, no emitted node holds a
later-emitted or remaining node by value, no emitted node holds itself, and
with enough fuel the loop only stops exhausted or stuck. -/
theorem kahnAux_spec (g : TypeGraph α) :
    ∀ (fuel : Nat) (rem acc : List α),
    (∀ x ∈ rem, x ∈ g.nodes) →
    acc.Pairwise (fun a b => (a, b) ∉ g.valueEdges) →
    (∀ x ∈ acc, ∀ d ∈ g.deps x, d ∉ rem) →
    (∀ x ∈ acc, (x, x) ∉ g.valueEdges) →
    ((kahnAux g fuel rem acc).1 ++ (kahnAux g fuel rem acc).2).Perm (acc ++ rem)
    ∧ (∀ x ∈ (kahnAux g fuel rem acc).2, x ∈ g.nodes)
    ∧ (kahnAux g fuel rem acc).1.Pairwise (fun a b => (a, b) ∉ g.valueEdges)
    ∧ (∀ x ∈ (kahnAux g fuel rem acc).1, ∀ d ∈ g.deps x, d ∉ (kahnAux g fuel rem acc).2)
    ∧ (∀ x ∈ (kahnAux g fuel rem acc).1, (x, x) ∉ g.valueEdges)
    ∧ (rem.length ≤ fuel →
        (kahnAux g fuel rem acc).2 = [] ∨ pickFree g (kahnAux g fuel rem acc).2 = none) := by
  intro fuel
  induction fuel with
  | zero =>
    intro rem acc hsub hpw h3 h5
    refine ⟨List.Perm.refl _, hsub, hpw, h3, h5, ?_⟩
    intro hlen
    exact Or.inl (List.eq_nil_of_length_eq_zero (Nat.le_zero.1 hlen))
  | succ fuel ih =>
    intro rem acc hsub hpw h3 h5
    cases hpick : pickFree g rem with
    | none =>
      have hk : kahnAux g (fuel + 1) rem acc = (acc, rem) := by
        simp [kahnAux, hpick]
      rw [hk]
      exact ⟨List.Perm.refl _, hsub, hpw, h3, h5, fun _ => Or.inr hpick⟩
    | some n =>
      have hk : kahnAux g (fuel + 1) rem acc = kahnAux g fuel (rem.erase n) (acc ++ [n]) := by
        simp [kahnAux, hpick]
      rw [hk]
      have hn_mem : n ∈ rem := List.mem_of_find?_eq_some hpick
      have hn_pred : ∀ d ∈ g.deps n, d ∉ rem := by
        have := List.find?_some hpick
        exact of_decide_eq_true this
      have hsub' : ∀ x ∈ rem.erase n, x ∈ g.nodes :=
        fun x hx => hsub x (List.mem_of_mem_erase hx)
      have hpw' : (acc ++ [n]).Pairwise (fun a b => (a, b) ∉ g.valueEdges) := by
        rw [List.pairwise_append]
        refine ⟨hpw, List.pairwise_singleton _ _, ?_⟩
        intro x hx b hb
        rw [List.mem_singleton] at hb
        rw [hb]
        intro hxn
        exact h3 x hx n ((mem_deps g x n).2 hxn) hn_mem
      have h3' : ∀ x ∈ acc ++ [n], ∀ d ∈ g.deps x, d ∉ rem.erase n := by
        intro x hx d hd hdrem
        have hdR : d ∈ rem := List.mem_of_mem_erase hdrem
        rcases List.mem_append.1 hx with hx | hx
        · exact h3 x hx d hd hdR
        · rw [List.mem_singleton] at hx
          subst hx
          exact hn_pred d hd hdR
      have h5' : ∀ x ∈ acc ++ [n], (x, x) ∉ g.valueEdges := by
        intro x hx
        rcases List.mem_append.1 hx with hx | hx
        · exact h5 x hx
        · rw [List.mem_singleton] at hx
          subst hx
          intro hxe
          exact hn_pred x ((mem_deps g x x).2 hxe) hn_mem
      obtain ⟨p1, p2, p3, p4, p5, p6⟩ := ih (rem.erase n) (acc ++ [n]) hsub' hpw' h3' h5'
      refine ⟨?_, p2, p3, p4, p5, ?_⟩
      · refine p1.trans ?_
        rw [List.append_assoc]
        exact List.Perm.append_left acc (List.perm_cons_erase hn_mem).symm
      · intro hlen
        refine p6 ?_
        have := List.length_erase_of_mem hn_mem
        have hpos : 1 ≤ rem.length := List.length_pos_of_mem hn_mem
        omega

/-- With an acyclic by-value graph the Kahn loop emits every node. -/
theorem kahn_complete (g : TypeGraph α) (h : Acyclic g) : (kahnRun g).2 = [] := by
  obtain ⟨p1, p2, p3, p4, p5, p6⟩ :=
    kahnAux_spec g g.nodes.length g.nodes [] (fun x hx => hx)
      (List.Pairwise.nil) (by simp) (by simp)
  rcases p6 le_rfl with he | hnone
  · exact he
  · by_contra hne
    obtain ⟨n, hnrem, hmin⟩ := exists_pick g h (kahnRun g).2 hne p2
    have hnp := List.find?_eq_none.1 hnone n hnrem
    refine hnp ?_
    refine decide_eq_true ?_
    intro d hd hdrem
    exact hmin d ⟨(mem_deps g n d).1 hd, p2 d hdrem, p2 n hnrem⟩ hdrem

/-- If the Kahn loop emits every node then the by-value graph is acyclic. -/
theorem kahn_sound (g : TypeGraph α) (h2 : (kahnRun g).2 = []) : Acyclic g := by
  obtain ⟨q1, q2, q3, q4, q5, q6⟩ :=
    kahnAux_spec g g.nodes.length g.nodes [] (fun x hx => hx)
      (List.Pairwise.nil) (by simp) (by simp)
  have p1 : ((kahnRun g).1 ++ (kahnRun g).2).Perm ([] ++ g.nodes) := q1
  have p3 : (kahnRun g).1.Pairwise (fun a b => (a, b) ∉ g.valueEdges) := q3
  have p5 : ∀ x ∈ (kahnRun g).1, (x, x) ∉ g.valueEdges := q5
  rw [h2] at p1
  have hperm : (kahnRun g).1.Perm g.nodes := by simpa using p1
  intro a hta
  have key : ∀ d n, depRel g d n → List.indexOf d (kahnRun g).1 < List.indexOf n (kahnRun g).1 := by
    intro d n hdn
    have hdL : d ∈ (kahnRun g).1 := hperm.mem_iff.2 hdn.2.1
    have hnL : n ∈ (kahnRun g).1 := hperm.mem_iff.2 hdn.2.2
    have hne : d ≠ n := by
      rintro rfl
      exact p5 d hdL hdn.1
    have hi := List.indexOf_lt_length.2 hnL
    have hj := List.indexOf_lt_length.2 hdL
    rcases lt_trichotomy (List.indexOf d (kahnRun g).1) (List.indexOf n (kahnRun g).1) with hlt | heq | hgt
    · exact hlt
    · exact absurd ((List.indexOf_inj hdL hnL).1 heq) hne
    · exfalso
      have hpij := List.pairwise_iff_get.1 p3
        ⟨List.indexOf n (kahnRun g).1, hi⟩ ⟨List.indexOf d (kahnRun g).1, hj⟩ hgt
      simp only [List.get_eq_getElem, List.getElem_indexOf] at hpij
      exact hpij hdn.1
  exact absurd (transGen_rank key hta) (lt_irrefl _)

/-- Lexicographic comparison of edges by (container, member) endpoint pair,
used to select the spec's "smallest lexical pair" offending edge. -/
def edgeBefore (e f : α × α) : Prop :=
  e.1 < f.1 ∨ (e.1 = f.1 ∧ e.2 ≤ f.2)

instance (e f : α × α) : Decidable (edgeBefore e f) := by
  unfold edgeBefore
  infer_instance

/-- Among the by-value edges both of whose endpoints are stuck (part of some
cycle component), select the lexically smallest one. -/
def pickMinEdge (g : TypeGraph α) (rem : List α) : Option (α × α) :=
  match g.valueEdges.filter (fun e => decide (e.1 ∈ rem) && decide (e.2 ∈ rem)) with
  | [] => none
  | c :: cs => some (cs.foldl (fun best e => if edgeBefore e best then e else best) c)

theorem foldl_min_mem (cs : List (α × α)) (c : α × α) :
    (cs.foldl (fun best e => if edgeBefore e best then e else best) c) ∈ c :: cs := by
  induction cs generalizing c with
  | nil => simp
  | cons e cs ih =>
    rw [List.foldl_cons]
    have := ih (if edgeBefore e c then e else c)
    rcases List.mem_cons.1 this with h | h
    · rw [h]
      by_cases hb : edgeBefore e c <;> simp [hb]
    · simp [h]

theorem pickMinEdge_mem (g : TypeGraph α) (rem : List α) (e : α × α)
    (h : pickMinEdge g rem = some e) :
    e ∈ g.valueEdges ∧ e.1 ∈ rem ∧ e.2 ∈ rem := by
  unfold pickMinEdge at h
  rcases hF : g.valueEdges.filter (fun e => decide (e.1 ∈ rem) && decide (e.2 ∈ rem)) with
    _ | ⟨c, cs⟩
  · rw [hF] at h; simp at h
  · rw [hF] at h
    simp only [Option.some.injEq] at h
    have hmem : e ∈ c :: cs := h ▸ foldl_min_mem cs c
    rw [← hF] at hmem
    have := List.mem_filter.1 hmem
    refine ⟨this.1, ?_, ?_⟩
    · have hb := this.2
      simp only [Bool.and_eq_true, decide_eq_true_eq] at hb
      exact hb.1
    · have hb := this.2
      simp only [Bool.and_eq_true, decide_eq_true_eq] at hb
      exact hb.2

/-- When the Kahn loop is stuck on a non-empty remainder, some by-value edge
has both endpoints in the remainder, so `pickMinEdge` succeeds. -/
theorem pickMinEdge_some (g : TypeGraph α) (rem : List α)
    (hstuck : pickFree g rem = none) (hne : rem ≠ []) :
    ∃ e, pickMinEdge g rem = some e := by
  obtain ⟨n, hn⟩ := List.exists_mem_of_ne_nil rem hne
  have hnp := List.find?_eq_none.1 hstuck n hn
  have : ¬ (∀ d ∈ g.deps n, d ∉ rem) := by
    intro hall
    exact hnp (decide_eq_true hall)
  push_neg at this
  obtain ⟨d, hd, hdrem⟩ := this
  have hedge : (n, d) ∈ g.valueEdges := (mem_deps g n d).1 hd
  have hmemF : (n, d) ∈ g.valueEdges.filter (fun e => decide (e.1 ∈ rem) && decide (e.2 ∈ rem)) := by
    rw [List.mem_filter]
    exact ⟨hedge, by simp [hn, hdrem]⟩
  rcases hF : g.valueEdges.filter (fun e => decide (e.1 ∈ rem) && decide (e.2 ∈ rem)) with
    _ | ⟨c, cs⟩
  · rw [hF] at hmemF; simp at hmemF
  · exact ⟨_, by rw [pickMinEdge, hF]⟩

/-- Rewrite one by-value member edge to a reference/indirection edge. -/
def rewriteEdge (g : TypeGraph α) (e : α × α) : TypeGraph α :=
  { nodes := g.nodes, valueEdges := g.valueEdges.erase e, refEdges := e :: g.refEdges }

/-- Modelled from the spec (section 4.7): cycle handling of the Dependency
Orderer, whose code is not in the source tree.  Re-run cycle detection (the
Kahn pass); when stuck, rewrite the lexically smallest by-value edge of the
stuck component to a reference edge, until the by-value graph is acyclic.  The
fuel `valueEdges.length + 1` is enough because every round removes one
by-value edge. -/
def breakCyclesAux : Nat → TypeGraph α → TypeGraph α
  | 0, g => g
  | fuel + 1, g =>
    if (kahnRun g).2 = [] then g
    else
      match pickMinEdge g (kahnRun g).2 with
      | none => g
      | some e => breakCyclesAux fuel (rewriteEdge g e)

/-- The Dependency Orderer's cycle-breaking pass. -/
def breakCycles (g : TypeGraph α) : TypeGraph α :=
  breakCyclesAux (g.valueEdges.length + 1) g

/-- The Dependency Orderer's emission order: cycle-break, then emit in Kahn
order. -/
def ordererOutput (g : TypeGraph α) : List α :=
  (kahnRun (breakCycles g)).1

theorem breakCycles_of_acyclic (g : TypeGraph α) (h : Acyclic g) : breakCycles g = g := by
  rw [breakCycles, breakCyclesAux, if_pos (kahn_complete g h)]

theorem breakCyclesAux_acyclic :
    ∀ (fuel : Nat) (g : TypeGraph α), g.valueEdges.length < fuel →
      Acyclic (breakCyclesAux fuel g) := by
  intro fuel
  induction fuel with
  | zero => intro g h; omega
  | succ fuel ih =>
    intro g hlen
    by_cases hstuck : (kahnRun g).2 = []
    · rw [breakCyclesAux, if_pos hstuck]
      exact kahn_sound g hstuck
    · have hpfnone : pickFree g (kahnRun g).2 = none := by
        obtain ⟨q1, q2, q3, q4, q5, q6⟩ :=
          kahnAux_spec g g.nodes.length g.nodes [] (fun x hx => hx)
            (List.Pairwise.nil) (by simp) (by simp)
        rcases q6 le_rfl with h1 | hn
        · exact absurd h1 hstuck
        · exact hn
      obtain ⟨e, he⟩ := pickMinEdge_some g (kahnRun g).2 hpfnone hstuck
      rw [breakCyclesAux, if_neg hstuck, he]
      refine ih (rewriteEdge g e) ?_
      have hmem := (pickMinEdge_mem g (kahnRun g).2 e he).1
      have := List.length_erase_of_mem hmem
      have hpos : 1 ≤ g.valueEdges.length := List.length_pos_of_mem hmem
      simp only [rewriteEdge]
      omega

/-- The result of cycle breaking is acyclic on by-value edges. -/
theorem breakCycles_acyclic (g : TypeGraph α) : Acyclic (breakCycles g) :=
  breakCyclesAux_acyclic (g.valueEdges.length + 1) g (by omega)

/-- Cycle breaking only removes by-value edges, keeps the node set, and every
removed by-value edge reappears as a reference edge. -/
theorem breakCyclesAux_edges :
    ∀ (fuel : Nat) (g : TypeGraph α),
      (breakCyclesAux fuel g).valueEdges ⊆ g.valueEdges
      ∧ (breakCyclesAux fuel g).nodes = g.nodes
      ∧ g.refEdges ⊆ (breakCyclesAux fuel g).refEdges
      ∧ (∀ e ∈ g.valueEdges,
          e ∈ (breakCyclesAux fuel g).valueEdges ∨ e ∈ (breakCyclesAux fuel g).refEdges) := by
  intro fuel
  induction fuel with
  | zero =>
    intro g
    exact ⟨fun e he => he, rfl, fun e he => he, fun e he => Or.inl he⟩
  | succ fuel ih =>
    intro g
    by_cases hstuck : (kahnRun g).2 = []
    · rw [breakCyclesAux, if_pos hstuck]
      exact ⟨fun e he => he, rfl, fun e he => he, fun e he => Or.inl he⟩
    · rw [breakCyclesAux, if_neg hstuck]
      cases hpe : pickMinEdge g (kahnRun g).2 with
      | none =>
        exact ⟨fun e he => he, rfl, fun e he => he, fun e he => Or.inl he⟩
      | some e0 =>
        obtain ⟨s1, s2, s3, s4⟩ := ih (rewriteEdge g e0)
        refine ⟨?_, ?_, ?_, ?_⟩
        · intro e he
          exact List.erase_subset _ _ (s1 he)
        · rw [s2]; rfl
        · intro e he
          exact s3 (List.mem_cons_of_mem e0 he)
        · intro e he
          by_cases hee : e = e0
          · subst hee
            exact Or.inr (s3 (List.mem_cons_self e g.refEdges))
          · have : e ∈ (rewriteEdge g e0).valueEdges := by
              simp only [rewriteEdge]
              exact (List.mem_erase_of_ne hee).2 he
            exact s4 e this

/-- A closed directed walk (a cycle, possibly with repeated vertices) through
the given edge list: at least one step, first and last vertex equal, and every
consecutive pair an edge. -/
def closedWalk (es : List (α × α)) (c : List α) : Prop :=
  2 ≤ c.length ∧ c.head? = c.getLast? ∧ List.Chain' (fun a b => (a, b) ∈ es) c

instance closedWalkDecidable {β : Type} [DecidableEq β] (es : List (β × β)) (c : List β) :
    Decidable (closedWalk (α := β) es c) :=
  inferInstanceAs
    (Decidable (2 ≤ c.length ∧ c.head? = c.getLast? ∧ List.Chain' (fun a b => (a, b) ∈ es) c))

omit [LinearOrder α] in
theorem chain_getLastD_transGen {r : α → α → Prop} :
    ∀ (l : List α) (a : α), List.Chain r a l → l ≠ [] →
      Relation.TransGen r a (l.getLastD a) := by
  intro l
  induction l with
  | nil => intro a _ hne; exact absurd rfl hne
  | cons x xs ih =>
    intro a hch _
    rw [List.chain_cons] at hch
    cases hxs : xs with
    | nil =>
      subst hxs
      exact Relation.TransGen.single hch.1
    | cons y ys =>
      subst hxs
      have hq := List.getLast?_eq_getLast_of_ne_nil (show (y :: ys) ≠ [] by simp)
      have hlast : (x :: y :: ys).getLastD a = (y :: ys).getLastD x := by
        rw [List.getLastD_eq_getLast?, List.getLastD_eq_getLast?, List.getLast?_cons_cons, hq]
        rfl
      rw [hlast]
      exact Relation.TransGen.head hch.1 (ih x hch.2 (by simp))

omit [LinearOrder α] in
theorem closedWalk_transGen (es : List (α × α)) (c : List α) (h : closedWalk es c) :
    ∃ a, Relation.TransGen (fun x y => (x, y) ∈ es) a a := by
  obtain ⟨hlen, hhl, hch⟩ := h
  cases c with
  | nil => simp at hlen
  | cons a rest =>
    cases rest with
    | nil => simp at hlen
    | cons b bs =>
      have hch' : List.Chain (fun x y => (x, y) ∈ es) a (b :: bs) := hch
      have hg := chain_getLastD_transGen (b :: bs) a hch' (by simp)
      have hlq : (b :: bs).getLast? = some a := by
        have h1 : (a :: b :: bs).head? = some a := rfl
        rw [h1, List.getLast?_cons_cons] at hhl
        exact hhl.symm
      have hld : (b :: bs).getLastD a = a := by
        rw [List.getLastD_eq_getLast?, hlq]
        rfl
      rw [hld] at hg
      exact ⟨a, hg⟩

/-- C3: for every schema set whose by-value type-reference graph is acyclic,
the Dependency Orderer's output is a linear order over all retained TypeNodes
(a permutation of the node set) in which every type appears after all the
TypeNodes it contains by value. -/
theorem c3_orderer_topological (g : TypeGraph α) (hacyc : Acyclic g) :
    (ordererOutput g).Perm g.nodes
    ∧ ∀ (l₁ : List α) (n : α) (l₂ : List α), ordererOutput g = l₁ ++ n :: l₂ →
        ∀ d, (n, d) ∈ g.valueEdges → d ∈ g.nodes → d ∈ l₁ := by
  have hbc : breakCycles g = g := breakCycles_of_acyclic g hacyc
  have hord : ordererOutput g = (kahnRun g).1 := by rw [ordererOutput, hbc]
  obtain ⟨q1, q2, q3, q4, q5, q6⟩ :=
    kahnAux_spec g g.nodes.length g.nodes [] (fun x hx => hx)
      (List.Pairwise.nil) (by simp) (by simp)
  have h2 : (kahnRun g).2 = [] := kahn_complete g hacyc
  have p1 : ((kahnRun g).1 ++ (kahnRun g).2).Perm ([] ++ g.nodes) := q1
  rw [h2] at p1
  have hperm : (kahnRun g).1.Perm g.nodes := by simpa using p1
  refine ⟨by rw [hord]; exact hperm, ?_⟩
  intro l₁ n l₂ hsplit d hedge hdnode
  rw [hord] at hsplit
  have hdL : d ∈ (kahnRun g).1 := hperm.mem_iff.2 hdnode
  have hnL : n ∈ (kahnRun g).1 := by
    rw [hsplit]
    exact List.mem_append.2 (Or.inr (List.mem_cons_self n l₂))
  have hnnode : n ∈ g.nodes := hperm.mem_iff.1 hnL
  rw [hsplit] at hdL
  rcases List.mem_append.1 hdL with hmem | hmem
  · exact hmem
  · rcases List.mem_cons.1 hmem with hmem | hmem
    · exfalso
      subst hmem
      exact hacyc d (Relation.TransGen.single ⟨hedge, hdnode, hdnode⟩)
    · exfalso
      have p3 : (kahnRun g).1.Pairwise (fun a b => (a, b) ∉ g.valueEdges) := q3
      rw [hsplit, List.pairwise_append] at p3
      have hp := p3.2.1
      rw [List.pairwise_cons] at hp
      exact hp.1 d hmem hedge

def c3Graph : TypeGraph String :=
  { nodes := ["B", "A"], valueEdges := [("A", "B")], refEdges := [] }

theorem c3Graph_acyclic : Acyclic c3Graph := by
  intro a h
  have key : ∀ d n, depRel c3Graph d n →
      (if d = "A" then 1 else 0) < (if n = "A" then 1 else 0) := by
    intro d n hdn
    have hm := hdn.1
    simp only [c3Graph, List.mem_singleton, Prod.mk.injEq] at hm
    rw [hm.1, hm.2]
    decide
  exact absurd (transGen_rank key h) (lt_irrefl _)

theorem c3_orderer_topological_witness :
    (ordererOutput c3Graph).Perm c3Graph.nodes
    ∧ ∀ (l₁ : List String) (n : String) (l₂ : List String),
        ordererOutput c3Graph = l₁ ++ n :: l₂ →
        ∀ d, (n, d) ∈ c3Graph.valueEdges → d ∈ c3Graph.nodes → d ∈ l₁ :=
  c3_orderer_topological c3Graph c3Graph_acyclic

/-- C4: for every schema set whose by-value graph contains a cycle (including
the degenerate self-loop), the Dependency Orderer terminates (`breakCycles` is
total), only rewrites by-value edges into reference edges, at least one edge of
every by-value cycle is rewritten to a reference edge, and the result is
acyclic on by-value edges. -/
theorem c4_cycle_breaking (g : TypeGraph α)
    (hWF : ∀ e ∈ g.valueEdges, e.1 ∈ g.nodes ∧ e.2 ∈ g.nodes) :
    (breakCycles g).valueEdges ⊆ g.valueEdges
    ∧ Acyclic (breakCycles g)
    ∧ (∀ e ∈ g.valueEdges, e ∉ (breakCycles g).valueEdges → e ∈ (breakCycles g).refEdges)
    ∧ ∀ c, closedWalk g.valueEdges c →
        ∃ i, ∃ h : i + 1 < c.length,
          (c.get ⟨i, Nat.lt_of_succ_lt h⟩, c.get ⟨i + 1, h⟩) ∈ g.valueEdges
          ∧ (c.get ⟨i, Nat.lt_of_succ_lt h⟩, c.get ⟨i + 1, h⟩) ∉ (breakCycles g).valueEdges
          ∧ (c.get ⟨i, Nat.lt_of_succ_lt h⟩, c.get ⟨i + 1, h⟩) ∈ (breakCycles g).refEdges := by
  obtain ⟨s1, s2, s3, s4⟩ := breakCyclesAux_edges (g.valueEdges.length + 1) g
  have hacyc : Acyclic (breakCycles g) := breakCycles_acyclic g
  refine ⟨s1, hacyc, ?_, ?_⟩
  · intro e he hnot
    rcases s4 e he with h | h
    · exact absurd h hnot
    · exact h
  · intro c hcw
    by_contra hno
    push_neg at hno
    have hgchain := List.chain'_iff_get.1 hcw.2.2
    have hstep : ∀ (i : Nat) (h : i + 1 < c.length),
        (c.get ⟨i, Nat.lt_of_succ_lt h⟩, c.get ⟨i + 1, h⟩) ∈ (breakCycles g).valueEdges := by
      intro i h
      have hin : (c.get ⟨i, Nat.lt_of_succ_lt h⟩, c.get ⟨i + 1, h⟩) ∈ g.valueEdges :=
        hgchain i (by omega)
      by_cases hv : (c.get ⟨i, Nat.lt_of_succ_lt h⟩, c.get ⟨i + 1, h⟩) ∈ (breakCycles g).valueEdges
      · exact hv
      · exfalso
        rcases s4 _ hin with hv' | hr
        · exact hv hv'
        · exact hno i h hin hv hr
    have hcw' : closedWalk (breakCycles g).valueEdges c := by
      refine ⟨hcw.1, hcw.2.1, ?_⟩
      refine List.chain'_iff_get.2 ?_
      intro i h
      exact hstep i (by omega)
    obtain ⟨a, ha⟩ := closedWalk_transGen (breakCycles g).valueEdges c hcw'
    have hmono : ∀ x y, (x, y) ∈ (breakCycles g).valueEdges →
        Function.swap (depRel (breakCycles g)) x y := by
      intro x y hxy
      have hg : (x, y) ∈ g.valueEdges := s1 hxy
      refine ⟨hxy, ?_, ?_⟩
      · have := (hWF _ hg).2
        show y ∈ (breakCycles g).nodes
        rw [show (breakCycles g).nodes = g.nodes from s2]
        exact this
      · have := (hWF _ hg).1
        show x ∈ (breakCycles g).nodes
        rw [show (breakCycles g).nodes = g.nodes from s2]
        exact this
    have hsw : Relation.TransGen (Function.swap (depRel (breakCycles g))) a a :=
      Relation.TransGen.mono hmono ha
    exact hacyc a (Relation.transGen_swap.1 hsw)

def c4Graph : TypeGraph String :=
  { nodes := ["A"], valueEdges := [("A", "A")], refEdges := [] }

theorem c4_cycle_breaking_witness :
    (breakCycles c4Graph).valueEdges ⊆ c4Graph.valueEdges
    ∧ Acyclic (breakCycles c4Graph)
    ∧ (∃ i, ∃ h : i + 1 < (["A", "A"] : List String).length,
        ((["A", "A"] : List String).get ⟨i, Nat.lt_of_succ_lt h⟩,
            (["A", "A"] : List String).get ⟨i + 1, h⟩) ∈ c4Graph.valueEdges
        ∧ ((["A", "A"] : List String).get ⟨i, Nat.lt_of_succ_lt h⟩,
            (["A", "A"] : List String).get ⟨i + 1, h⟩) ∉ (breakCycles c4Graph).valueEdges
        ∧ ((["A", "A"] : List String).get ⟨i, Nat.lt_of_succ_lt h⟩,
            (["A", "A"] : List String).get ⟨i + 1, h⟩) ∈ (breakCycles c4Graph).refEdges) := by
  have h := c4_cycle_breaking c4Graph (by decide)
  have hwalk : closedWalk c4Graph.valueEdges ["A", "A"] :=
    ⟨by decide, rfl, List.chain'_pair.2 (by simp [c4Graph])⟩
  exact ⟨h.1, h.2.1, h.2.2.2 ["A", "A"] hwalk⟩

/-! ## Optionality rendering of generated members (spec sections 3, 4.8) -/

/-- A Particle of the data model (spec section 3): a named element or
attribute with an occurrence range (`maxOccurs = none` means unbounded) and a
nillable flag.  Modelled from the spec: the Code Generator is not in the
source tree. -/
structure Particle where
  name : String
  minOccurs : Nat
  maxOccurs : Option Nat
  nillable : Bool
  deriving DecidableEq

/-- How one member of a generated class renders. -/
inductive MemberRendering where
  | plain
  | optionalPer (strategy : OptionalElementType)
  deriving DecidableEq

/-- Modelled from the spec (sections 3 and 4.8): a Particle is optional when
`minOccurs = 0` or it is nillable. -/
def particleOptional (p : Particle) : Bool :=
  p.minOccurs == 0 || p.nillable

/-- Modelled from the spec (section 4.8): optional Particles render per the
configured optionality strategy; all others render plainly. -/
def memberRendering (strategy : OptionalElementType) (p : Particle) : MemberRendering :=
  if particleOptional p then .optionalPer strategy else .plain

/-- C5 counterexample: the claim says the optionality strategy is applied if
and only if `minOccurs = 0` and never for `minOccurs ≥ 1`; but a nillable
Particle with `minOccurs = 1` renders per the strategy (spec sections 3 and
4.8: optional means `minOccurs = 0` **or** nillable). -/
theorem c5_nillable_counterexample :
    memberRendering OptionalElementType.ERawPointer
        { name := "humidity", minOccurs := 1, maxOccurs := some 1, nillable := true } =
      MemberRendering.optionalPer OptionalElementType.ERawPointer
    ∧ (1 : Nat) ≠ 0 := by
  exact ⟨rfl, by decide⟩

/-- C5 (amended): a member renders per the configured optionality strategy if
and only if its Particle has `minOccurs = 0` or is nillable; a non-nillable
Particle with `minOccurs ≥ 1` never renders optional. -/
theorem c5_optionality_amended (strategy : OptionalElementType) (p : Particle) :
    (memberRendering strategy p = .optionalPer strategy ↔ (p.minOccurs = 0 ∨ p.nillable = true))
    ∧ (p.nillable = false → 1 ≤ p.minOccurs → memberRendering strategy p = .plain) := by
  constructor
  · by_cases h : particleOptional p = true
    · have hcond : p.minOccurs = 0 ∨ p.nillable = true := by
        simpa [particleOptional] using h
      simp [memberRendering, h, hcond]
    · have hcond : ¬(p.minOccurs = 0 ∨ p.nillable = true) := by
        simpa [particleOptional] using h
      simp [memberRendering, h, hcond]
  · intro hn hm
    have : p.minOccurs ≠ 0 := by omega
    simp [memberRendering, particleOptional, hn, this]

theorem c5_optionality_amended_witness :
    (memberRendering OptionalElementType.EStdOptional
        { name := "humidity", minOccurs := 0, maxOccurs := some 1, nillable := false } =
          MemberRendering.optionalPer OptionalElementType.EStdOptional
      ↔ ((0 : Nat) = 0 ∨ false = true))
    ∧ memberRendering OptionalElementType.EStdOptional
        { name := "city", minOccurs := 1, maxOccurs := some 1, nillable := false } =
          MemberRendering.plain :=
  ⟨(c5_optionality_amended OptionalElementType.EStdOptional
      { name := "humidity", minOccurs := 0, maxOccurs := some 1, nillable := false }).1,
    (c5_optionality_amended OptionalElementType.EStdOptional
      { name := "city", minOccurs := 1, maxOccurs := some 1, nillable := false }).2
      rfl (by decide)⟩

/-! ## The Schema Document Store (spec section 4.1)

Modelled from the spec: the Document Store's code is not in the source tree
(the CLI only sets the import-path list and the local-files-only flag). -/

/-- Configuration consumed by the Document Store. -/
structure FetchConfig where
  importPaths : List String
  useLocalFilesOnly : Bool

/-- A document locator: a local file path, or a remote URI split into host and
path. -/
inductive Locator where
  | file (path : String)
  | remote (host : String) (path : String)
  deriving DecidableEq

/-- The probe location `<importPath>/<uri-host>/<uri-path>` (spec section
4.1). -/
def probePath (ip host path : String) : String :=
  ip ++ "/" ++ host ++ path

/-- Modelled from the spec (section 4.1): `resolve(locator) -> bytes`.  For a
remote locator, probe each configured import path in order; on no hit, fail
with a fetch error naming the locator when local-files-only is set, otherwise
fall back to the network fetch.  `lfs` is the local file system and `net` the
network, both as partial maps from location to content. -/
def resolveDoc (cfg : FetchConfig) (lfs net : String → Option String) :
    Locator → Except Locator String
  | .file p =>
    match lfs p with
    | some content => .ok content
    | none => .error (.file p)
  | .remote h p =>
    match cfg.importPaths.filterMap (fun ip => lfs (probePath ip h p)) with
    | content :: _ => .ok content
    | [] =>
      if cfg.useLocalFilesOnly then .error (.remote h p)
      else
        match net (h ++ p) with
        | some content => .ok content
        | none => .error (.remote h p)

/-- Modelled from the spec (sections 2 and 7): the pipeline runs only on a
successfully resolved start document; a fetch error is fatal and yields no
generated output. -/
def runPipeline (cfg : FetchConfig) (lfs net : String → Option String)
    (generate : String → List String) (loc : Locator) : Except Locator (List String) :=
  match resolveDoc cfg lfs net loc with
  | .error e => .error e
  | .ok content => .ok (generate content)

/-- C7: with local-files-only set and a remote locator not present under any
configured import path, resolution fails with a fetch error naming that
locator, the network is never consulted (the result is the same for every
network), and the run produces no generated output. -/
theorem c7_local_files_only (cfg : FetchConfig) (lfs net : String → Option String)
    (generate : String → List String) (host path : String)
    (hlocal : cfg.useLocalFilesOnly = true)
    (hmiss : ∀ ip ∈ cfg.importPaths, lfs (probePath ip host path) = none) :
    resolveDoc cfg lfs net (.remote host path) = .error (.remote host path)
    ∧ (∀ net2 : String → Option String,
        resolveDoc cfg lfs net (.remote host path) = resolveDoc cfg lfs net2 (.remote host path))
    ∧ runPipeline cfg lfs net generate (.remote host path) = .error (.remote host path)
    ∧ ∀ output, runPipeline cfg lfs net generate (.remote host path) ≠ .ok output := by
  have hfm : cfg.importPaths.filterMap (fun ip => lfs (probePath ip host path)) = [] :=
    List.filterMap_eq_nil_iff.2 hmiss
  have hres : resolveDoc cfg lfs net (.remote host path) = .error (.remote host path) := by
    rw [resolveDoc, hfm]
    simp [hlocal]
  refine ⟨hres, ?_, ?_, ?_⟩
  · intro net2
    rw [hres]
    rw [resolveDoc, hfm]
    simp [hlocal]
  · rw [runPipeline, hres]
  · intro output
    rw [runPipeline, hres]
    simp

theorem c7_local_files_only_witness :
    resolveDoc { importPaths := ["cache"], useLocalFilesOnly := true } (fun _ => none)
        (fun _ => some "<wsdl/>") (.remote "example.com" "/svc.wsdl") =
      .error (.remote "example.com" "/svc.wsdl")
    ∧ runPipeline { importPaths := ["cache"], useLocalFilesOnly := true } (fun _ => none)
        (fun _ => some "<wsdl/>") (fun d => [d]) (.remote "example.com" "/svc.wsdl") =
      .error (.remote "example.com" "/svc.wsdl") := by
  have h := c7_local_files_only { importPaths := ["cache"], useLocalFilesOnly := true }
    (fun _ => none) (fun _ => some "<wsdl/>") (fun d => [d]) "example.com" "/svc.wsdl"
    rfl (by intro ip _; rfl)
  exact ⟨h.1, h.2.2.1⟩

/-! ## The Namespace Mapper (spec section 4.4)

Modelled from the spec: the Namespace Mapper's code is not in the source tree.
Resolution order per spec: (1) the explicit user mapping; (2) a deterministic
fallback deriving a short code from the URI (last path segment, sanitized to
an identifier, with a numeric suffix on collision). -/

/-- Decimal digit characters. -/
def dch : Nat → Char
  | 0 => '0' | 1 => '1' | 2 => '2' | 3 => '3' | 4 => '4'
  | 5 => '5' | 6 => '6' | 7 => '7' | 8 => '8' | _ => '9'

/-- Value of a decimal digit character (default 9). -/
def dval : Char → Nat
  | '0' => 0 | '1' => 1 | '2' => 2 | '3' => 3 | '4' => 4
  | '5' => 5 | '6' => 6 | '7' => 7 | '8' => 8 | _ => 9

theorem dval_dch (m : Nat) (h : m < 10) : dval (dch m) = m := by
  interval_cases m <;> rfl

/-- Little-endian decimal digits of a positive number (empty for 0). -/
def digitsRev (n : Nat) : List Char :=
  if h : n = 0 then []
  else dch (n % 10) :: digitsRev (n / 10)
decreasing_by
  exact Nat.div_lt_self (Nat.pos_of_ne_zero h) (by omega)

/-- Evaluation of little-endian digit lists. -/
def valRev : List Char → Nat
  | [] => 0
  | c :: r => dval c + 10 * valRev r

theorem valRev_digitsRev : ∀ n : Nat, valRev (digitsRev n) = n := by
  intro n
  induction n using Nat.strong_induction_on with
  | _ n ih =>
    rw [digitsRev]
    by_cases h : n = 0
    · simp [h, valRev]
    · rw [dif_neg h]
      rw [valRev]
      have hdiv : n / 10 < n := Nat.div_lt_self (Nat.pos_of_ne_zero h) (by omega)
      rw [ih (n / 10) hdiv, dval_dch (n % 10) (Nat.mod_lt n (by omega))]
      exact Nat.mod_add_div n 10

theorem digitsRev_inj {a b : Nat} (h : digitsRev a = digitsRev b) : a = b := by
  have := congrArg valRev h
  rwa [valRev_digitsRev, valRev_digitsRev] at this

/-- Decimal rendering of a number as a string. -/
def natSuffix (n : Nat) : String :=
  String.mk (digitsRev n).reverse

theorem natSuffix_inj {a b : Nat} (h : natSuffix a = natSuffix b) : a = b := by
  apply digitsRev_inj
  have hdata := congrArg String.data h
  simp only [natSuffix] at hdata
  exact List.reverse_injective hdata

theorem natSuffix_pos_ne_empty (k : Nat) : natSuffix (k + 1) ≠ "" := by
  intro h
  have hdata := congrArg String.data h
  simp only [natSuffix] at hdata
  rw [digitsRev] at hdata
  simp at hdata

/-- The `k`-th candidate code: the base for `k = 0`, then the base with the
numeric suffix `k`. -/
def candCode (base : String) : Nat → String
  | 0 => base
  | k + 1 => base ++ natSuffix (k + 1)

theorem candCode_inj (base : String) {j k : Nat} (h : candCode base j = candCode base k) :
    j = k := by
  cases j with
  | zero =>
    cases k with
    | zero => rfl
    | succ k =>
      exfalso
      have hdata := congrArg String.data h
      simp only [candCode] at hdata
      rw [data_append] at hdata
      have : (natSuffix (k + 1)).data = [] := by
        have hlen := congrArg List.length hdata
        simp at hlen
        exact List.eq_nil_of_length_eq_zero hlen
      exact natSuffix_pos_ne_empty k (by cases hs : natSuffix (k + 1); simp_all)
  | succ j =>
    cases k with
    | zero =>
      exfalso
      have hdata := congrArg String.data h
      simp only [candCode] at hdata
      rw [data_append] at hdata
      have : (natSuffix (j + 1)).data = [] := by
        have hlen := congrArg List.length hdata
        simp at hlen
        exact List.eq_nil_of_length_eq_zero hlen
      exact natSuffix_pos_ne_empty j (by cases hs : natSuffix (j + 1); simp_all)
    | succ k =>
      simp only [candCode] at h
      have hdata := congrArg String.data h
      rw [data_append, data_append] at hdata
      have hsuffix : (natSuffix (j + 1)).data = (natSuffix (k + 1)).data :=
        List.append_cancel_left hdata
      have : natSuffix (j + 1) = natSuffix (k + 1) := by
        cases hs1 : natSuffix (j + 1); cases hs2 : natSuffix (k + 1); simp_all
      have := natSuffix_inj this
      omega

/-- Some candidate among `0 .. assigned.length + 1` is unused: the candidates
are pairwise distinct and there are more of them than assigned codes. -/
theorem exists_fresh (assigned : List String) (base : String) :
    ∃ k ∈ List.range (assigned.length + 2), candCode base k ∉ assigned := by
  by_contra hno
  push_neg at hno
  have himg : (Finset.range (assigned.length + 2)).image (candCode base) ⊆ assigned.toFinset := by
    intro c hc
    rw [Finset.mem_image] at hc
    obtain ⟨k, hk, hck⟩ := hc
    rw [List.mem_toFinset]
    rw [Finset.mem_range] at hk
    exact hck ▸ hno k (List.mem_range.2 hk)
  have hcard := Finset.card_le_card himg
  rw [Finset.card_image_of_injective _ (fun a b hab => candCode_inj base hab),
    Finset.card_range] at hcard
  have := assigned.toFinset_card_le
  omega

/-- First unused candidate code built from the base with a numeric suffix on
collision (spec section 4.4).  The fallback arm is unreachable. -/
def freshCode (assigned : List String) (base : String) : String :=
  match (List.range (assigned.length + 2)).find?
      (fun k => decide (candCode base k ∉ assigned)) with
  | some k => candCode base k
  | none => base

theorem freshCode_not_mem (assigned : List String) (base : String) :
    freshCode assigned base ∉ assigned := by
  rw [freshCode]
  cases hf : (List.range (assigned.length + 2)).find?
      (fun k => decide (candCode base k ∉ assigned)) with
  | some k =>
    have := List.find?_some hf
    exact of_decide_eq_true this
  | none =>
    exfalso
    obtain ⟨k, hk, hkfree⟩ := exists_fresh assigned base
    exact absurd (decide_eq_true hkfree) (by simpa using List.find?_eq_none.1 hf k hk)

/-- Modelled from the spec (section 4.4): the fallback base code derived from
a URI — its last non-empty path segment, sanitized to an identifier. -/
def sanitizeCode (uri : String) : String :=
  let segs := (splitE '/' uri.data).filter (fun f => decide (f ≠ []))
  let cleaned := (segs.getLastD []).filter (fun ch => ch.isAlphanum || ch = '_')
  if cleaned = [] then "ns" else String.mk cleaned

/-- The explicit user mapping, looked up by URI. -/
def lookupUser (user : List (String × String)) (u : String) : Option String :=
  (user.find? (fun p => decide (p.1 = u))).map Prod.snd

/-- Modelled from the spec (section 4.4): assign a code to every namespace in
order of appearance — the user-supplied override when present, otherwise the
sanitized fallback with a numeric suffix while it collides with an
already-assigned code. -/
def assignAux (user : List (String × String)) :
    List String → List (String × String) → List (String × String)
  | [], acc => acc.reverse
  | u :: rest, acc =>
    if u ∈ acc.map Prod.fst then assignAux user rest acc
    else
      match lookupUser user u with
      | some c => assignAux user rest ((u, c) :: acc)
      | none => assignAux user rest ((u, freshCode (acc.map Prod.snd) (sanitizeCode u)) :: acc)

/-- The namespace-to-code assignment over the namespaces present in the loaded
document set. -/
def assignCodes (user : List (String × String)) (ns : List String) : List (String × String) :=
  assignAux user ns []

theorem mem_assignAux (user : List (String × String)) :
    ∀ (rest : List String) (acc : List (String × String)) (p : String × String),
      p ∈ acc → p ∈ assignAux user rest acc := by
  intro rest
  induction rest with
  | nil =>
    intro acc p hp
    simpa [assignAux] using hp
  | cons v rest ih =>
    intro acc p hp
    simp only [assignAux]
    by_cases hmem : v ∈ acc.map Prod.fst
    · rw [if_pos hmem]
      exact ih acc p hp
    · rw [if_neg hmem]
      cases hl : lookupUser user v with
      | some c => exact ih _ p (List.mem_cons_of_mem _ hp)
      | none => exact ih _ p (List.mem_cons_of_mem _ hp)

theorem assignAux_total (user : List (String × String)) :
    ∀ (rest : List String) (acc : List (String × String)) (u : String),
      u ∈ rest ∨ (∃ c, (u, c) ∈ acc) → ∃ c, (u, c) ∈ assignAux user rest acc := by
  intro rest
  induction rest with
  | nil =>
    intro acc u h
    rcases h with h | ⟨c, hc⟩
    · simp at h
    · exact ⟨c, by simpa [assignAux] using hc⟩
  | cons v rest ih =>
    intro acc u h
    simp only [assignAux]
    by_cases hmem : v ∈ acc.map Prod.fst
    · rw [if_pos hmem]
      apply ih
      rcases h with h | hc
      · rcases List.mem_cons.1 h with h | h
        · subst h
          obtain ⟨q, hq, hq1⟩ := List.mem_map.1 hmem
          exact Or.inr ⟨q.2, by rw [← hq1]; exact hq⟩
        · exact Or.inl h
      · exact Or.inr hc
    · rw [if_neg hmem]
      cases hl : lookupUser user v with
      | some c0 =>
        apply ih
        rcases h with h | ⟨c, hc⟩
        · rcases List.mem_cons.1 h with h | h
          · subst h
            exact Or.inr ⟨c0, List.mem_cons_self _ _⟩
          · exact Or.inl h
        · exact Or.inr ⟨c, List.mem_cons_of_mem _ hc⟩
      | none =>
        apply ih
        rcases h with h | ⟨c, hc⟩
        · rcases List.mem_cons.1 h with h | h
          · subst h
            exact Or.inr ⟨_, List.mem_cons_self _ _⟩
          · exact Or.inl h
        · exact Or.inr ⟨c, List.mem_cons_of_mem _ hc⟩

theorem assignAux_inj (user : List (String × String))
    (hU : ∀ u1 u2 c, lookupUser user u1 = some c → lookupUser user u2 = some c → u1 = u2) :
    ∀ (rest : List String) (acc : List (String × String)),
    (∀ q ∈ acc, lookupUser user q.1 = some q.2 ∨ lookupUser user q.1 = none) →
    (∀ p q, p ∈ acc → q ∈ acc → p.2 = q.2 → p.1 = q.1) →
    (∀ p q, p ∈ assignAux user rest acc → q ∈ assignAux user rest acc →
        (lookupUser user p.1).isSome = true → lookupUser user q.1 = none → p.2 ≠ q.2) →
    (∀ p q, p ∈ assignAux user rest acc → q ∈ assignAux user rest acc → p.2 = q.2 → p.1 = q.1) := by
  intro rest
  induction rest with
  | nil =>
    intro acc hsrc hinj hMix p q hp hq heq
    rw [assignAux, List.mem_reverse] at hp hq
    exact hinj p q hp hq heq
  | cons v rest ih =>
    intro acc hsrc hinj hMix
    simp only [assignAux] at hMix ⊢
    by_cases hmem : v ∈ acc.map Prod.fst
    · rw [if_pos hmem] at hMix ⊢
      exact ih acc hsrc hinj hMix
    · rw [if_neg hmem] at hMix ⊢
      cases hl : lookupUser user v with
      | some c0 =>
        rw [hl] at hMix
        dsimp only at hMix ⊢
        have hsrc' : ∀ q ∈ (v, c0) :: acc,
            lookupUser user q.1 = some q.2 ∨ lookupUser user q.1 = none := by
          intro q hq
          rcases List.mem_cons.1 hq with hq | hq
          · rw [hq]
            exact Or.inl hl
          · exact hsrc q hq
        have hinj' : ∀ p q, p ∈ (v, c0) :: acc → q ∈ (v, c0) :: acc →
            p.2 = q.2 → p.1 = q.1 := by
          intro p q hp hq heq
          rcases List.mem_cons.1 hp with hp | hp
          · rcases List.mem_cons.1 hq with hq | hq
            · rw [hp, hq]
            · rcases hsrc q hq with hqu | hqf
              · have hq2 : lookupUser user q.1 = some c0 := by
                  rw [hqu]
                  have : q.2 = c0 := by rw [← heq, hp]
                  rw [this]
                have hq1 : q.1 = v := hU q.1 v c0 hq2 hl
                rw [hp, hq1]
              · exfalso
                refine hMix p q
                  (mem_assignAux user rest _ p (by rw [hp]; exact List.mem_cons_self _ _))
                  (mem_assignAux user rest _ q (List.mem_cons_of_mem _ hq)) ?_ hqf heq
                rw [hp]
                show (lookupUser user v).isSome = true
                rw [hl]
                rfl
          · rcases List.mem_cons.1 hq with hq | hq
            · rcases hsrc p hp with hpu | hpf
              · have hp2 : lookupUser user p.1 = some c0 := by
                  rw [hpu]
                  have : p.2 = c0 := by rw [heq, hq]
                  rw [this]
                have hp1 : p.1 = v := hU p.1 v c0 hp2 hl
                rw [hq, hp1]
              · exfalso
                refine hMix q p
                  (mem_assignAux user rest _ q (by rw [hq]; exact List.mem_cons_self _ _))
                  (mem_assignAux user rest _ p (List.mem_cons_of_mem _ hp)) ?_ hpf heq.symm
                rw [hq]
                show (lookupUser user v).isSome = true
                rw [hl]
                rfl
            · exact hinj p q hp hq heq
        exact ih ((v, c0) :: acc) hsrc' hinj' hMix
      | none =>
        rw [hl] at hMix
        dsimp only at hMix ⊢
        have hfresh := freshCode_not_mem (acc.map Prod.snd) (sanitizeCode v)
        have hsrc' : ∀ q ∈ (v, freshCode (acc.map Prod.snd) (sanitizeCode v)) :: acc,
            lookupUser user q.1 = some q.2 ∨ lookupUser user q.1 = none := by
          intro q hq
          rcases List.mem_cons.1 hq with hq | hq
          · rw [hq]
            exact Or.inr hl
          · exact hsrc q hq
        have hinj' : ∀ p q, p ∈ (v, freshCode (acc.map Prod.snd) (sanitizeCode v)) :: acc →
            q ∈ (v, freshCode (acc.map Prod.snd) (sanitizeCode v)) :: acc →
            p.2 = q.2 → p.1 = q.1 := by
          intro p q hp hq heq
          rcases List.mem_cons.1 hp with hp | hp
          · rcases List.mem_cons.1 hq with hq | hq
            · rw [hp, hq]
            · exfalso
              apply hfresh
              have : q.2 = freshCode (acc.map Prod.snd) (sanitizeCode v) := by
                rw [← heq, hp]
              rw [← this]
              exact List.mem_map.2 ⟨q, hq, rfl⟩
          · rcases List.mem_cons.1 hq with hq | hq
            · exfalso
              apply hfresh
              have : p.2 = freshCode (acc.map Prod.snd) (sanitizeCode v) := by
                rw [heq, hq]
              rw [← this]
              exact List.mem_map.2 ⟨p, hp, rfl⟩
            · exact hinj p q hp hq heq
        exact ih _ hsrc' hinj' hMix

def c6User : List (String × String) := [("urn:a", "X"), ("urn:b", "X")]

def c6NS : List String := ["urn:a", "urn:b"]

/-- C6 counterexample: the claim asserts the namespace-to-code assignment is a
bijection for every mapping configuration, but a user mapping that gives two
present namespaces the same code is stored as-is (explicit user mapping wins,
spec section 4.4), so two distinct namespaces receive the same code. -/
theorem c6_user_collision_counterexample :
    ("urn:a", "X") ∈ assignCodes c6User c6NS
    ∧ ("urn:b", "X") ∈ assignCodes c6User c6NS
    ∧ "urn:a" ≠ "urn:b"
    ∧ ¬(∀ p q, p ∈ assignCodes c6User c6NS → q ∈ assignCodes c6User c6NS →
          p.2 = q.2 → p.1 = q.1) := by
  refine ⟨by decide, by decide, by decide, ?_⟩
  intro h
  have := h ("urn:a", "X") ("urn:b", "X") (by decide) (by decide) rfl
  exact absurd this (by decide)

/-- C6 (amended): the assignment is total on the namespaces present and
deterministic; it is injective (hence a bijection onto its codes) provided the
explicit user mapping does not give two namespaces the same code and no
user-supplied code coincides with a fallback-assigned code.  Without those
provisos injectivity can fail (see the counterexample). -/
theorem c6_mapper_amended (user : List (String × String)) (ns : List String)
    (hU : ∀ u1 u2 c, lookupUser user u1 = some c → lookupUser user u2 = some c → u1 = u2)
    (hMix : ∀ p q, p ∈ assignCodes user ns → q ∈ assignCodes user ns →
        (lookupUser user p.1).isSome = true → lookupUser user q.1 = none → p.2 ≠ q.2) :
    (∀ u ∈ ns, ∃ c, (u, c) ∈ assignCodes user ns)
    ∧ (∀ p q, p ∈ assignCodes user ns → q ∈ assignCodes user ns → p.2 = q.2 → p.1 = q.1)
    ∧ (∀ user2 ns2, user = user2 → ns = ns2 → assignCodes user ns = assignCodes user2 ns2) := by
  refine ⟨?_, ?_, ?_⟩
  · intro u hu
    exact assignAux_total user ns [] u (Or.inl hu)
  · exact assignAux_inj user hU ns [] (by simp) (by simp) hMix
  · intro user2 ns2 h1 h2
    rw [h1, h2]

theorem c6_mapper_amended_witness :
    (∀ u ∈ ["http://example.com/weather", "http://example.com/types"],
        ∃ c, (u, c) ∈ assignCodes [] ["http://example.com/weather", "http://example.com/types"])
    ∧ (∀ p q, p ∈ assignCodes [] ["http://example.com/weather", "http://example.com/types"] →
        q ∈ assignCodes [] ["http://example.com/weather", "http://example.com/types"] →
        p.2 = q.2 → p.1 = q.1) := by
  have h := c6_mapper_amended [] ["http://example.com/weather", "http://example.com/types"]
    (by intro u1 u2 c h1 h2; simp [lookupUser] at h1)
    (by intro p q hp hq hs hn; simp [lookupUser] at hs)
  exact ⟨h.1, h.2.1⟩

end KDSoap
